import Mathlib

/-!
Verification development for the sparse-tree mutation engine of
`git-branchless` (`git-branchless-lib/src/git/repo.rs`): changed-path
differencing, dehydration/hydration, fast cherry-pick, fast amend, and the
porcelain-v2 status-stream decoder.

The object store is content-addressed and immutable, so store objects are
embedded structurally: a tree is its (flat) list of path entries, and a
tree OID is the canonical (sorted) form of that list, so that two trees
have equal OIDs exactly when they have equal canonical content.  External
collaborators (the 3-way merge primitive of libgit2, the filesystem, the
staged index) are passed in as explicit oracle parameters.

The tree module (`dehydrate_tree`, `hydrate_tree`,
`get_changed_paths_between_trees`) and the status/index modules of the
repository are not part of the provided sources; their definitions below
are modelled from the spec and marked as such.
-/

namespace GitBranchless

/-- File mode bits of a tree or index entry (`FileMode` in the source). -/
abbrev FileMode := Nat

/-- A tree entry: a (non-zero) object id together with its file mode. -/
structure TreeEntry where
  oid : Nat
  fileMode : FileMode
deriving DecidableEq

/-- A tree, embedded as its flat list of `(relative path, entry)` pairs. -/
abbrev Tree := List (String × TreeEntry)

/-- First-match association-list lookup, used to read a path from a tree or
an override map. -/
def assocLookup {α : Type} : List (String × α) → String → Option α
  | [], _ => none
  | (k, v) :: rest, p => if k = p then some v else assocLookup rest p

/-- Insert an entry into a list sorted by path. -/
def insertSorted (x : String × TreeEntry) :
    List (String × TreeEntry) → List (String × TreeEntry)
  | [] => [x]
  | y :: ys => if x.1 ≤ y.1 then x :: y :: ys else y :: insertSorted x ys

/-- The content-addressed identity of a tree: since the store is
content-addressed, two trees have the same OID exactly when they have the
same canonical (sorted) entry list.  The canonical empty-tree OID is the
OID of `[]`. -/
def Tree.getOid (t : Tree) : List (String × TreeEntry) :=
  t.foldr insertSorted []

/-- A commit, restricted to the fields the modelled operations read: its
tree and the trees of its parent commits. -/
structure Commit where
  tree : Tree
  parents : List Tree
deriving DecidableEq

/-- `Commit::get_only_parent`: the sole parent if there is exactly one. -/
def Commit.get_only_parent (c : Commit) : Option Tree :=
  match c.parents with
  | [only_parent] => some only_parent
  | _ => none

/-- An object id that may be the reserved zero sentinel (`MaybeZeroOid`). -/
inductive MaybeZeroOid where
  | Zero : MaybeZeroOid
  | NonZero : Nat → MaybeZeroOid
deriving DecidableEq

/-- An index entry (`IndexEntry` in the source): possibly-zero OID plus
file mode. -/
structure IndexEntry where
  oid : MaybeZeroOid
  fileMode : FileMode
deriving DecidableEq

/-- One unmerged entry of a merge result, with the paths present on each
of its three sides (libgit2 `IndexConflict`). -/
structure IndexConflict where
  ancestor : Option String
  our : Option String
  their : Option String
deriving DecidableEq

/-- The index-like result of the 3-way merge primitive (an external
collaborator): a conflict flag, the list of unmerged entries, and
per-path entry lookup. -/
structure MergeIndex where
  hasConflicts : Bool
  conflicts : List IndexConflict
  getEntry : String → Option IndexEntry

/-- Append a path to a path list unless already present (models inserting
into a `HashSet` while keeping a concrete list). -/
def insertIfAbsent (l : List String) (x : String) : List String :=
  if x ∈ l then l else l ++ [x]

/-- Set union of two path lists, deduplicated. -/
def listUnion (l1 l2 : List String) : List String :=
  l2.foldl insertIfAbsent l1

/-- Modelled from the spec: `get_changed_paths_between_trees` lives in the
tree module, which is not among the provided sources.  Spec section 4.1:
the output is the set of relative paths where content or mode differs, or
that exist in exactly one side; `None` represents "no tree". -/
def get_changed_paths_between_trees (old_tree new_tree : Option Tree) :
    List String :=
  let lookupIn : Option Tree → String → Option TreeEntry := fun t p =>
    match t with
    | none => none
    | some t => assocLookup t p
  let keys :=
    listUnion []
      ((old_tree.getD []).map Prod.fst ++ (new_tree.getD []).map Prod.fst)
  keys.filter (fun p => decide (lookupIn old_tree p ≠ lookupIn new_tree p))

/-- `Repo::get_paths_touched_by_commit`: paths added, removed or changed by
the commit.  No parents: all paths in its tree.  More than one parent:
`none`. -/
def get_paths_touched_by_commit (commit : Commit) : Option (List String) :=
  match commit.parents with
  | [] => some (get_changed_paths_between_trees none (some commit.tree))
  | [only_parent] =>
    some (get_changed_paths_between_trees (some only_parent) (some commit.tree))
  | _ => none

/-- Modelled from the spec: `dehydrate_tree` lives in the tree module,
which is not among the provided sources.  Spec section 4.2: the dehydrated
tree contains only the entries at the selected paths, each copied verbatim
from the source tree; paths absent from the source are simply omitted. -/
def dehydrate_tree (tree : Tree) (changed_paths : List String) : Tree :=
  tree.filter (fun e => decide (e.1 ∈ changed_paths))

/-- Entries of the base tree kept or rewritten by hydration. -/
def hydrateKept (base_tree : Tree)
    (entries : List (String × Option TreeEntry)) : Tree :=
  base_tree.filterMap (fun e =>
    match assocLookup entries e.1 with
    | none => some e
    | some none => none
    | some (some v) => some (e.1, v))

/-- Override entries added by hydration for paths absent from the base
tree. -/
def hydrateAdded (base_tree : Tree)
    (entries : List (String × Option TreeEntry)) : Tree :=
  entries.filterMap (fun o =>
    match o.2 with
    | none => none
    | some v =>
      match assocLookup base_tree o.1 with
      | some _ => none
      | none => some (o.1, v))

/-- Modelled from the spec: `hydrate_tree` lives in the tree module, which
is not among the provided sources.  Spec section 4.2: starting from the
base tree, each override sets the entry if present and deletes it if the
override denotes absence; all other paths retain their base value. -/
def hydrate_tree (base_tree : Tree)
    (entries : List (String × Option TreeEntry)) : Tree :=
  hydrateKept base_tree entries ++ hydrateAdded base_tree entries

/-- `Repo::dehydrate_commit`: a commit with the dehydrated tree; when
`base_on_parent` is set and there is exactly one parent, the sole parent is
dehydrated one level (without further chaining) as well. -/
def dehydrate_commit (commit : Commit) (changed_paths : List String)
    (base_on_parent : Bool) : Commit :=
  let dehydrated_tree := dehydrate_tree commit.tree changed_paths
  let parents :=
    if base_on_parent then
      match Commit.get_only_parent commit with
      | some parent => [dehydrate_tree parent changed_paths]
      | none => []
    else []
  { tree := dehydrated_tree, parents := parents }

/-- Options for `Repo::cherry_pick_fast`. -/
structure CherryPickFastOptions where
  reuse_parent_tree_if_possible : Bool
deriving DecidableEq

/-- An error raised when attempting `Repo::cherry_pick_fast`: a merge
conflict carrying the conflicting path set. -/
inductive CherryPickFastError where
  | MergeConflict (conflicting_paths : List String) : CherryPickFastError
deriving DecidableEq

/-- The paths appearing on the three sides of one unmerged entry, in the
order the source inserts them (ancestor, ours, theirs). -/
def conflictSides (c : IndexConflict) : List String :=
  c.ancestor.toList ++ c.our.toList ++ c.their.toList

/-- Collect every path appearing on any side of any unmerged entry
(`conflicting_paths` in `Repo::cherry_pick_fast`). -/
def collectConflictPaths (conflicts : List IndexConflict) : List String :=
  conflicts.foldl (fun acc c => (conflictSides c).foldl insertIfAbsent acc) []

/-- The warning logged when the conflict flag is set but no conflicting
path was collected. -/
def bugEmptyConflictWarning : String :=
  "BUG: A merge conflict was detected, but there were no entries in conflicting paths. Maybe the wrong index entry was used?"

/-- The warning logged when a merged index entry holds a zero OID. -/
def cherryZeroOidWarning : String :=
  "BUG: index entry was zero. This probably indicates that a removed path was not handled correctly."

/-- The classification of one merged index entry in
`Repo::cherry_pick_fast`: a present non-zero entry is an upsert, an absent
entry is a removal, and a present zero-OID entry is defensively treated as
a removal. -/
def classifyMergedEntry : Option IndexEntry → Option TreeEntry
  | some { oid := MaybeZeroOid.Zero, fileMode := _ } => none
  | some { oid := MaybeZeroOid.NonZero oid, fileMode := m } =>
    some { oid := oid, fileMode := m }
  | none => none

/-- Build the hydration override map (`rebased_entries`) from the merged
index, together with the zero-OID warnings emitted along the way. -/
def collectRebasedEntries (rebased_index : MergeIndex) :
    List String → List (String × Option TreeEntry) × List String
  | [] => ([], [])
  | p :: rest =>
    let r := collectRebasedEntries rebased_index rest
    match rebased_index.getEntry p with
    | some { oid := MaybeZeroOid.Zero, fileMode := _ } =>
      ((p, none) :: r.1, cherryZeroOidWarning :: r.2)
    | some { oid := MaybeZeroOid.NonZero oid, fileMode := m } =>
      ((p, some { oid := oid, fileMode := m }) :: r.1, r.2)
    | none => ((p, none) :: r.1, r.2)

/-- The elision test of `Repo::cherry_pick_fast`: the caller opted in, the
patch commit has exactly one parent, and that parent has the same tree OID
as the target commit. -/
def elisionApplies (options : CherryPickFastOptions)
    (patch_commit target_commit : Commit) : Bool :=
  options.reuse_parent_tree_if_possible &&
    match Commit.get_only_parent patch_commit with
    | some only_parent =>
      decide (Tree.getOid only_parent = Tree.getOid target_commit.tree)
    | none => false

/-- `Repo::cherry_pick_fast`.  The 3-way merge primitive (libgit2
`cherrypick_commit`) is an external collaborator and is passed as the
`merge` oracle.  The second component of the result collects the warnings
logged during the operation. -/
def cherry_pick_fast (merge : Commit → Commit → MergeIndex)
    (patch_commit target_commit : Commit) (options : CherryPickFastOptions) :
    Except String (Except CherryPickFastError Tree) × List String :=
  if elisionApplies options patch_commit target_commit then
    (Except.ok (Except.ok patch_commit.tree), [])
  else
    match get_paths_touched_by_commit patch_commit with
    | none => (Except.error "Could not get paths touched by commit", [])
    | some changed_pathbufs =>
      let dehydrated_patch_commit :=
        dehydrate_commit patch_commit changed_pathbufs true
      let dehydrated_target_commit :=
        dehydrate_commit target_commit changed_pathbufs false
      let rebased_index := merge dehydrated_patch_commit dehydrated_target_commit
      if rebased_index.hasConflicts then
        let conflicting_paths := collectConflictPaths rebased_index.conflicts
        if conflicting_paths.isEmpty then
          (Except.ok (Except.error
              (CherryPickFastError.MergeConflict conflicting_paths)),
            [bugEmptyConflictWarning])
        else
          (Except.ok (Except.error
              (CherryPickFastError.MergeConflict conflicting_paths)), [])
      else
        let r := collectRebasedEntries rebased_index changed_pathbufs
        (Except.ok (Except.ok (hydrate_tree target_commit.tree r.1)), r.2)

/-- Modelled from the spec: the file status codes come from the status
module, which is not among the provided sources; only the variants used by
the modelled operations are listed, and none of them affects behaviour. -/
inductive FileStatus where
  | Unmodified : FileStatus
  | Modified : FileStatus
  | Added : FileStatus
  | Deleted : FileStatus
  | Renamed : FileStatus
deriving DecidableEq

/-- A status entry (`StatusEntry` in the source): index status code,
working-copy status code, working-copy file mode, path, and the optional
original path of a rename. -/
structure StatusEntry where
  index_status : FileStatus
  working_copy_status : FileStatus
  working_copy_file_mode : FileMode
  path : String
  orig_path : Option String
deriving DecidableEq

/-- Modelled from the spec: `StatusEntry::paths` comes from the status
module, which is not among the provided sources.  Spec section 4.4: an
entry may name two paths for a rename, and both sides are included. -/
def StatusEntry.paths (e : StatusEntry) : List String :=
  e.path :: e.orig_path.toList

/-- Options for `Repo::amend_fast`: amend from the working copy (driven by
status entries) or from the staged index (driven by an explicit path
list); mutually exclusive per call. -/
inductive AmendFastOptions where
  | FromWorkingCopy (status_entries : List StatusEntry) : AmendFastOptions
  | FromIndex (paths : List String) : AmendFastOptions
deriving DecidableEq

/-- The paths explicitly named by an amend request, including both sides
of any rename. -/
def AmendFastOptions.requestedPaths : AmendFastOptions → List String
  | AmendFastOptions.FromWorkingCopy status_entries =>
    status_entries.flatMap StatusEntry.paths
  | AmendFastOptions.FromIndex paths => paths

/-- The outcome of reading one file from the working copy: the blob OID of
its contents, absence, or an I/O failure. -/
inductive FsResult where
  | found (oid : Nat) : FsResult
  | notFound : FsResult
  | ioError (message : String) : FsResult
deriving DecidableEq

/-- `Repo::create_blob_from_path`: a missing file yields `none`, any other
read failure is propagated as an error. -/
def create_blob_from_path : FsResult → Except String (Option Nat)
  | FsResult.found oid => Except.ok (some oid)
  | FsResult.notFound => Except.ok none
  | FsResult.ioError m => Except.error m

/-- The `FromWorkingCopy` arm of `new_tree_entries` in `Repo::amend_fast`:
read each requested path from the working copy, aborting on the first
read failure; a found file becomes an upsert with the entry mode, a
missing file becomes a removal. -/
def workingCopyEntryList (fs : String → FsResult) :
    List (String × FileMode) → Except String (List (String × Option TreeEntry))
  | [] => Except.ok []
  | (p, m) :: rest =>
    match create_blob_from_path (fs p) with
    | Except.error e => Except.error e
    | Except.ok entryOid =>
      match workingCopyEntryList fs rest with
      | Except.error e => Except.error e
      | Except.ok r =>
        Except.ok ((p, entryOid.map (fun oid => { oid := oid, fileMode := m })) :: r)

/-- The warning logged when a staged index entry holds a zero OID. -/
def indexZeroOidWarning (p : String) : String :=
  "index entry was zero: " ++ p

/-- The `FromIndex` arm of `new_tree_entries` in `Repo::amend_fast`: a
present non-zero staged entry becomes an upsert, an absent entry becomes a
removal, and a present zero-OID entry is logged and skipped (filtered
out of the map). -/
def indexEntryList (index : String → Option IndexEntry) :
    List String → List (String × Option TreeEntry) × List String
  | [] => ([], [])
  | p :: rest =>
    let r := indexEntryList index rest
    match index p with
    | some { oid := MaybeZeroOid.Zero, fileMode := _ } =>
      (r.1, indexZeroOidWarning p :: r.2)
    | some { oid := MaybeZeroOid.NonZero oid, fileMode := m } =>
      ((p, some { oid := oid, fileMode := m }) :: r.1, r.2)
    | none => ((p, none) :: r.1, r.2)

/-- `Repo::amend_fast`.  The working copy and the staged index are
external state and are passed as the `fs` and `index` oracles; the
repository is assumed non-bare.  The source collects `new_tree_entries`
into a `HashMap`, whose lookup keeps the last insertion per key; the model
keeps the entry list and reverses it so that first-match lookup observes
the same map.  The second component of the result collects the warnings
logged during the operation. -/
def amend_fast (fs : String → FsResult) (index : String → Option IndexEntry)
    (parent_commit : Commit) (opts : AmendFastOptions) :
    Except String Tree × List String :=
  match get_paths_touched_by_commit parent_commit with
  | none => (Except.error "Could not get paths touched by commit", [])
  | some parent_commit_pathbufs =>
    let changed_paths :=
      listUnion parent_commit_pathbufs (AmendFastOptions.requestedPaths opts)
    let dehydrated_parent := dehydrate_commit parent_commit changed_paths true
    let dehydrated_parent_tree := dehydrated_parent.tree
    let built : Except String (List (String × Option TreeEntry)) × List String :=
      match opts with
      | AmendFastOptions.FromWorkingCopy status_entries =>
        (Except.map List.reverse
          (workingCopyEntryList fs
            (status_entries.flatMap (fun e =>
              (StatusEntry.paths e).map (fun p => (p, e.working_copy_file_mode))))),
          [])
      | AmendFastOptions.FromIndex paths =>
        let r := indexEntryList index paths
        (Except.ok r.1.reverse, r.2)
    match built with
    | (Except.error e, ws) => (Except.error e, ws)
    | (Except.ok new_tree_entries, ws) =>
      let amended_tree_entries := changed_paths.map (fun changed_path =>
        (changed_path,
          match assocLookup new_tree_entries changed_path with
          | some v => v
          | none => assocLookup dehydrated_parent_tree changed_path))
      (Except.ok (hydrate_tree parent_commit.tree amended_tree_entries), ws)

/-- Split one NUL-terminated field group off a byte stream (bytes are
embedded as `Nat`): the consumed group without its terminator, and the
remainder after the terminator (or after the end of the stream). -/
def takeGroup : List Nat → List Nat × List Nat
  | [] => ([], [])
  | b :: bs =>
    if b = 0 then ([], bs)
    else
      let r := takeGroup bs
      (b :: r.1, r.2)

/-- The remainder left by `takeGroup` is no longer than the input. -/
theorem takeGroup_rest_length_le (l : List Nat) :
    (takeGroup l).2.length ≤ l.length := by
  induction l with
  | nil => simp [takeGroup]
  | cons b bs ih =>
    simp only [takeGroup]
    split
    · simp
    · simpa using Nat.le_succ_of_le ih

/-- The record loop of `Repo::get_status`, decoding the NUL-delimited
porcelain-v2 byte stream into status entries.  The per-record field parse
(`TryFrom` for `StatusEntry`, in the status module outside the provided
sources) is passed as the `parse` oracle.  A record with leading tag byte
49 or 117 (ASCII 1 or u) consumes one NUL-terminated group; a record with
leading tag byte 50 (ASCII 2) consumes one group plus a second
NUL-terminated field with the first terminator kept inside the line; any
other leading tag byte fails the whole decode. -/
def get_status (parse : List Nat → Except String StatusEntry) :
    List Nat → Except String (List StatusEntry)
  | [] => Except.ok []
  | b :: bs =>
    if b = 49 ∨ b = 117 then
      let r := takeGroup bs
      match parse (b :: r.1) with
      | Except.error e => Except.error e
      | Except.ok entry =>
        match get_status parse r.2 with
        | Except.error e => Except.error e
        | Except.ok entries => Except.ok (entry :: entries)
    else if b = 50 then
      let r1 := takeGroup bs
      let r2 := takeGroup r1.2
      match parse ((b :: r1.1) ++ 0 :: r2.1) with
      | Except.error e => Except.error e
      | Except.ok entry =>
        match get_status parse r2.2 with
        | Except.error e => Except.error e
        | Except.ok entries => Except.ok (entry :: entries)
    else Except.error ("unknown status line prefix: " ++ toString b)
termination_by l => l.length
decreasing_by
  · exact Nat.lt_succ_of_le (takeGroup_rest_length_le bs)
  · exact Nat.lt_succ_of_le
      (Nat.le_trans (takeGroup_rest_length_le (takeGroup bs).2)
        (takeGroup_rest_length_le bs))

/-! ### Association-list and path-set lemmas -/

theorem assocLookup_append {α : Type} (l1 l2 : List (String × α)) (p : String) :
    assocLookup (l1 ++ l2) p =
      match assocLookup l1 p with
      | some v => some v
      | none => assocLookup l2 p := by
  induction l1 with
  | nil => simp [assocLookup]
  | cons e rest ih =>
    obtain ⟨k, v⟩ := e
    by_cases h : k = p <;> simp [assocLookup, h, ih]

theorem assocLookup_map_pair {α : Type} (l : List String) (f : String → α)
    (p : String) :
    assocLookup (l.map (fun q => (q, f q))) p =
      if p ∈ l then some (f p) else none := by
  induction l with
  | nil => simp [assocLookup]
  | cons q rest ih =>
    by_cases h : q = p
    · subst h; simp [assocLookup]
    · simp [assocLookup, h, ih, Ne.symm h]

theorem assocLookup_eq_none_of_not_mem {α : Type} (l : List (String × α))
    (p : String) (h : p ∉ l.map Prod.fst) : assocLookup l p = none := by
  induction l with
  | nil => simp [assocLookup]
  | cons e rest ih =>
    obtain ⟨k, v⟩ := e
    simp only [List.map_cons, List.mem_cons] at h
    push_neg at h
    simp [assocLookup, Ne.symm h.1, ih h.2]

theorem assocLookup_isSome_iff_mem {α : Type} (l : List (String × α))
    (p : String) : (assocLookup l p).isSome ↔ p ∈ l.map Prod.fst := by
  induction l with
  | nil => simp [assocLookup]
  | cons e rest ih =>
    obtain ⟨k, v⟩ := e
    by_cases h : k = p
    · subst h; simp [assocLookup]
    · simp [assocLookup, h, ih, Ne.symm h]

theorem dehydrate_tree_lookup (t : Tree) (ps : List String) (p : String) :
    assocLookup (dehydrate_tree t ps) p =
      if p ∈ ps then assocLookup t p else none := by
  induction t with
  | nil => simp [dehydrate_tree, assocLookup]
  | cons e rest ih =>
    obtain ⟨k, v⟩ := e
    simp only [dehydrate_tree] at ih ⊢
    by_cases hk : k ∈ ps
    · by_cases hkp : k = p
      · subst hkp; simp [assocLookup, hk]
      · simp [assocLookup, hk, hkp, ih]
    · by_cases hkp : k = p
      · subst hkp; simp [assocLookup, hk, ih]
      · simp [assocLookup, hk, hkp, ih]

theorem hydrateKept_lookup (base : Tree)
    (ov : List (String × Option TreeEntry)) (p : String) :
    assocLookup (hydrateKept base ov) p =
      match assocLookup ov p with
      | none => assocLookup base p
      | some none => none
      | some (some v) => (assocLookup base p).map (fun _ => v) := by
  induction base with
  | nil =>
    cases h : assocLookup ov p <;> simp [hydrateKept, assocLookup, h]
    case some v => cases v <;> simp
  | cons e rest ih =>
    obtain ⟨k, w⟩ := e
    simp only [hydrateKept, List.filterMap_cons] at ih ⊢
    cases h : assocLookup ov k with
    | none =>
      by_cases hkp : k = p
      · subst hkp; simp [assocLookup, h]
      · simp only [h]
        simpa [assocLookup, hkp] using ih
    | some v =>
      cases v with
      | none =>
        by_cases hkp : k = p
        · subst hkp
          simp only [h]
          simpa [h] using ih
        · simp only [h]
          simpa [assocLookup, hkp] using ih
      | some v' =>
        by_cases hkp : k = p
        · subst hkp; simp [assocLookup, h]
        · simp only [h]
          simpa [assocLookup, hkp] using ih

theorem hydrateAdded_lookup (base : Tree)
    (ov : List (String × Option TreeEntry)) (p : String)
    (hnd : (ov.map Prod.fst).Nodup) :
    assocLookup (hydrateAdded base ov) p =
      match assocLookup ov p with
      | some (some v) =>
        (match assocLookup base p with
         | some _ => none
         | none => some v)
      | _ => none := by
  induction ov with
  | nil => simp [hydrateAdded, assocLookup]
  | cons o rest ih =>
    obtain ⟨k, val⟩ := o
    simp only [List.map_cons, List.nodup_cons] at hnd
    obtain ⟨hk, hrest⟩ := hnd
    by_cases hkp : k = p
    · subst hkp
      have hnone : assocLookup rest k = none :=
        assocLookup_eq_none_of_not_mem rest k hk
      cases val with
      | none =>
        have := ih hrest
        simp only [hydrateAdded, List.filterMap_cons] at this ⊢
        simp [assocLookup, this, hnone]
      | some v =>
        cases hb : assocLookup base k with
        | none =>
          simp only [hydrateAdded, List.filterMap_cons, hb]
          simp [assocLookup]
        | some w =>
          have := ih hrest
          simp only [hydrateAdded, List.filterMap_cons, hb] at this ⊢
          simp [assocLookup, this, hnone]
    · cases val with
      | none =>
        have := ih hrest
        simp only [hydrateAdded, List.filterMap_cons] at this ⊢
        simp [assocLookup, hkp, this]
      | some v =>
        cases hb : assocLookup base k with
        | none =>
          have := ih hrest
          simp only [hydrateAdded, List.filterMap_cons, hb] at this ⊢
          simp [assocLookup, hkp, this]
        | some w =>
          have := ih hrest
          simp only [hydrateAdded, List.filterMap_cons, hb] at this ⊢
          simp [assocLookup, hkp, this]

/-- The observable content of hydration: overridden paths take the
override value (upsert or removal), all other paths keep their base
value. -/
theorem hydrate_tree_lookup (base : Tree)
    (ov : List (String × Option TreeEntry)) (p : String)
    (hnd : (ov.map Prod.fst).Nodup) :
    assocLookup (hydrate_tree base ov) p =
      match assocLookup ov p with
      | some v => v
      | none => assocLookup base p := by
  simp only [hydrate_tree, assocLookup_append, hydrateKept_lookup,
    hydrateAdded_lookup base ov p hnd]
  cases h : assocLookup ov p with
  | none => cases assocLookup base p <;> simp
  | some v =>
    cases v with
    | none => simp
    | some v' => cases assocLookup base p <;> simp

theorem mem_insertIfAbsent (l : List String) (x y : String) :
    y ∈ insertIfAbsent l x ↔ y ∈ l ∨ y = x := by
  by_cases h : x ∈ l
  · constructor
    · intro hy; exact Or.inl (by simpa [insertIfAbsent, h] using hy)
    · intro hy
      rcases hy with hy | hy
      · simpa [insertIfAbsent, h] using hy
      · subst hy; simp [insertIfAbsent, h]
  · simp [insertIfAbsent, h]

theorem nodup_insertIfAbsent (l : List String) (x : String) (h : l.Nodup) :
    (insertIfAbsent l x).Nodup := by
  by_cases hx : x ∈ l
  · simpa [insertIfAbsent, hx] using h
  · rw [insertIfAbsent, if_neg hx]
    refine h.append (List.nodup_singleton x) ?_
    intro a ha hax
    rw [List.mem_singleton] at hax
    subst hax
    exact hx ha

theorem mem_listUnion (l1 l2 : List String) (y : String) :
    y ∈ listUnion l1 l2 ↔ y ∈ l1 ∨ y ∈ l2 := by
  induction l2 generalizing l1 with
  | nil => simp [listUnion]
  | cons x rest ih =>
    simp only [listUnion, List.foldl_cons] at ih ⊢
    rw [ih (insertIfAbsent l1 x), mem_insertIfAbsent]
    simp only [List.mem_cons]
    tauto

theorem nodup_listUnion (l1 l2 : List String) (h : l1.Nodup) :
    (listUnion l1 l2).Nodup := by
  induction l2 generalizing l1 with
  | nil => simpa [listUnion] using h
  | cons x rest ih =>
    simp only [listUnion, List.foldl_cons] at ih ⊢
    exact ih (insertIfAbsent l1 x) (nodup_insertIfAbsent l1 x h)

theorem nodup_get_changed_paths (old_tree new_tree : Option Tree) :
    (get_changed_paths_between_trees old_tree new_tree).Nodup := by
  simp only [get_changed_paths_between_trees]
  exact List.Nodup.filter _ (nodup_listUnion [] _ (by simp))

theorem nodup_get_paths_touched (c : Commit) (l : List String)
    (h : get_paths_touched_by_commit c = some l) : l.Nodup := by
  unfold get_paths_touched_by_commit at h
  split at h <;> simp_all <;> subst h <;> exact nodup_get_changed_paths _ _

theorem mem_conflictSides (c : IndexConflict) (p : String) :
    p ∈ conflictSides c ↔
      c.ancestor = some p ∨ c.our = some p ∨ c.their = some p := by
  simp [conflictSides, Option.mem_toList, Option.mem_def]

theorem mem_foldl_conflictPaths (cs : List IndexConflict) (acc : List String)
    (p : String) :
    p ∈ cs.foldl (fun acc c => (conflictSides c).foldl insertIfAbsent acc) acc ↔
      p ∈ acc ∨ ∃ c ∈ cs, p ∈ conflictSides c := by
  induction cs generalizing acc with
  | nil => simp
  | cons c rest ih =>
    simp only [List.foldl_cons]
    rw [ih (List.foldl insertIfAbsent acc (conflictSides c))]
    rw [show List.foldl insertIfAbsent acc (conflictSides c) =
      listUnion acc (conflictSides c) from rfl, mem_listUnion]
    simp only [List.mem_cons]
    constructor
    · rintro ((h | h) | ⟨c', hc', hp⟩)
      · exact Or.inl h
      · exact Or.inr ⟨c, Or.inl rfl, h⟩
      · exact Or.inr ⟨c', Or.inr hc', hp⟩
    · rintro (h | ⟨c', hc' | hc', hp⟩)
      · exact Or.inl (Or.inl h)
      · subst hc'; exact Or.inl (Or.inr hp)
      · exact Or.inr ⟨c', hc', hp⟩

theorem mem_collectConflictPaths (conflicts : List IndexConflict) (p : String) :
    p ∈ collectConflictPaths conflicts ↔
      ∃ c ∈ conflicts, p ∈ conflictSides c := by
  rw [collectConflictPaths, mem_foldl_conflictPaths]
  simp

theorem collectRebasedEntries_fst (idx : MergeIndex) (cp : List String) :
    (collectRebasedEntries idx cp).1 =
      cp.map (fun p => (p, classifyMergedEntry (idx.getEntry p))) := by
  induction cp with
  | nil => simp [collectRebasedEntries]
  | cons p rest ih =>
    simp only [collectRebasedEntries, List.map_cons]
    rcases h : idx.getEntry p with _ | ⟨_ | oid, m⟩ <;>
      simp [h, classifyMergedEntry, ih]

theorem collectRebasedEntries_warning (idx : MergeIndex) (cp : List String)
    (p : String) (m : FileMode) (hp : p ∈ cp)
    (hz : idx.getEntry p = some { oid := MaybeZeroOid.Zero, fileMode := m }) :
    cherryZeroOidWarning ∈ (collectRebasedEntries idx cp).2 := by
  induction cp with
  | nil => simp at hp
  | cons q rest ih =>
    rcases List.mem_cons.mp hp with hq | hq
    · subst hq
      simp [collectRebasedEntries, hz]
    · rcases h : idx.getEntry q with _ | ⟨_ | oid, m'⟩ <;>
        simp [collectRebasedEntries, h, ih hq]

/-! ### C1: elision in fast cherry-pick -/

/-- C1.  If the caller opted into tree reuse, the patch commit has exactly
one parent, and that parent has the same tree OID as the target commit,
then `cherry_pick_fast` returns the patch commit's own tree directly,
performing no merge (the result does not depend on the merge oracle) and
regardless of what the changed-path computation would have produced. -/
theorem cherry_pick_fast_elision (merge : Commit → Commit → MergeIndex)
    (patch_commit target_commit : Commit) (options : CherryPickFastOptions)
    (only_parent : Tree)
    (hreuse : options.reuse_parent_tree_if_possible = true)
    (hpar : patch_commit.parents = [only_parent])
    (hoid : Tree.getOid only_parent = Tree.getOid target_commit.tree) :
    cherry_pick_fast merge patch_commit target_commit options =
      (Except.ok (Except.ok patch_commit.tree), []) := by
  have hop : Commit.get_only_parent patch_commit = some only_parent := by
    unfold Commit.get_only_parent
    rw [hpar]
  have he : elisionApplies options patch_commit target_commit = true := by
    simp [elisionApplies, hop, hreuse, hoid]
  simp [cherry_pick_fast, he]

def c1OnlyParentTree : Tree := [("b.txt", { oid := 2, fileMode := 33188 })]

def c1PatchCommit : Commit :=
  { tree := [("a.txt", { oid := 1, fileMode := 33188 })],
    parents := [c1OnlyParentTree] }

def c1TargetCommit : Commit := { tree := c1OnlyParentTree, parents := [] }

/-- A merge oracle that always reports a conflict, witnessing that elision
never consults the merge. -/
def c1ConflictingMerge : Commit → Commit → MergeIndex := fun _ _ =>
  { hasConflicts := true,
    conflicts := [{ ancestor := some "x.txt", our := none, their := none }],
    getEntry := fun _ => none }

theorem cherry_pick_fast_elision_witness :
    cherry_pick_fast c1ConflictingMerge c1PatchCommit c1TargetCommit
        { reuse_parent_tree_if_possible := true } =
      (Except.ok (Except.ok c1PatchCommit.tree), []) :=
  cherry_pick_fast_elision c1ConflictingMerge c1PatchCommit c1TargetCommit
    { reuse_parent_tree_if_possible := true } c1OnlyParentTree rfl rfl rfl

/-! ### C2: conflict outcome of fast cherry-pick -/

/-- C2.  When the underlying 3-way merge reports conflicts, the operation
returns a structured `MergeConflict` outcome (distinct from both success
and an error) whose conflicting path set contains exactly every path
appearing on any of the three sides of any unmerged entry; and when the
conflict flag is set but this collected set is empty, the defect warning
is logged and the (empty) conflict is still returned rather than a
success. -/
theorem cherry_pick_fast_merge_conflict (merge : Commit → Commit → MergeIndex)
    (patch_commit target_commit : Commit) (options : CherryPickFastOptions)
    (cp : List String)
    (helide : elisionApplies options patch_commit target_commit = false)
    (htouch : get_paths_touched_by_commit patch_commit = some cp)
    (hconf : (merge (dehydrate_commit patch_commit cp true)
        (dehydrate_commit target_commit cp false)).hasConflicts = true) :
    ∃ S : List String,
      (cherry_pick_fast merge patch_commit target_commit options).1 =
        Except.ok (Except.error (CherryPickFastError.MergeConflict S)) ∧
      (∀ p, p ∈ S ↔
        ∃ c ∈ (merge (dehydrate_commit patch_commit cp true)
            (dehydrate_commit target_commit cp false)).conflicts,
          c.ancestor = some p ∨ c.our = some p ∨ c.their = some p) ∧
      (S = [] → bugEmptyConflictWarning ∈
        (cherry_pick_fast merge patch_commit target_commit options).2) := by
  refine ⟨collectConflictPaths (merge (dehydrate_commit patch_commit cp true)
      (dehydrate_commit target_commit cp false)).conflicts, ?_, ?_, ?_⟩
  · unfold cherry_pick_fast
    rw [helide, htouch]
    simp only [Bool.false_eq_true, if_false, hconf, if_true]
    split <;> rfl
  · intro p
    rw [mem_collectConflictPaths]
    constructor
    · rintro ⟨c, hc, hp⟩
      exact ⟨c, hc, (mem_conflictSides c p).mp hp⟩
    · rintro ⟨c, hc, hp⟩
      exact ⟨c, hc, (mem_conflictSides c p).mpr hp⟩
  · intro hS
    unfold cherry_pick_fast
    rw [helide, htouch]
    simp only [Bool.false_eq_true, if_false, hconf, if_true]
    rw [hS]
    simp

def c2PatchCommit : Commit :=
  { tree := [("f.txt", { oid := 3, fileMode := 33188 })], parents := [] }

def c2TargetCommit : Commit :=
  { tree := [("g.txt", { oid := 4, fileMode := 33188 })], parents := [] }

/-- A merge oracle reporting a conflict whose unmerged entry names paths
on two of its three sides. -/
def c2ConflictingMerge : Commit → Commit → MergeIndex := fun _ _ =>
  { hasConflicts := true,
    conflicts := [{ ancestor := some "a.txt", our := none,
                    their := some "b.txt" }],
    getEntry := fun _ => none }

theorem cherry_pick_fast_merge_conflict_witness :
    ∃ S : List String,
      (cherry_pick_fast c2ConflictingMerge c2PatchCommit c2TargetCommit
          { reuse_parent_tree_if_possible := false }).1 =
        Except.ok (Except.error (CherryPickFastError.MergeConflict S)) ∧
      (∀ p, p ∈ S ↔
        ∃ c ∈ (c2ConflictingMerge
            (dehydrate_commit c2PatchCommit ["f.txt"] true)
            (dehydrate_commit c2TargetCommit ["f.txt"] false)).conflicts,
          c.ancestor = some p ∨ c.our = some p ∨ c.their = some p) ∧
      (S = [] → bugEmptyConflictWarning ∈
        (cherry_pick_fast c2ConflictingMerge c2PatchCommit c2TargetCommit
          { reuse_parent_tree_if_possible := false }).2) :=
  cherry_pick_fast_merge_conflict c2ConflictingMerge c2PatchCommit
    c2TargetCommit { reuse_parent_tree_if_possible := false } ["f.txt"]
    rfl rfl rfl

/-! ### C3: parent-count restriction of fast cherry-pick -/

/-- C3 (amended).  A patch commit with more than one parent is rejected
with an explicit error, without consulting the merge; a patch commit with
zero parents is not rejected (see the counterexample below). -/
theorem cherry_pick_fast_rejects_multi_parent
    (merge : Commit → Commit → MergeIndex)
    (patch_commit target_commit : Commit) (options : CherryPickFastOptions)
    (h : 2 ≤ patch_commit.parents.length) :
    (cherry_pick_fast merge patch_commit target_commit options).1 =
      Except.error "Could not get paths touched by commit" := by
  rcases hp : patch_commit.parents with _ | ⟨a, _ | ⟨b, rest⟩⟩
  · rw [hp] at h; simp at h
  · rw [hp] at h; simp at h
  · have hop : Commit.get_only_parent patch_commit = none := by
      unfold Commit.get_only_parent
      rw [hp]
    have htouch : get_paths_touched_by_commit patch_commit = none := by
      unfold get_paths_touched_by_commit
      rw [hp]
    have he : elisionApplies options patch_commit target_commit = false := by
      simp [elisionApplies, hop]
    unfold cherry_pick_fast
    rw [he, htouch]
    simp

def c3PatchCommit : Commit :=
  { tree := [("f.txt", { oid := 3, fileMode := 33188 })],
    parents := [[("p.txt", { oid := 5, fileMode := 33188 })],
                [("q.txt", { oid := 6, fileMode := 33188 })]] }

def c3ZeroParentPatchCommit : Commit :=
  { tree := [("f.txt", { oid := 3, fileMode := 33188 })], parents := [] }

def c3TargetCommit : Commit :=
  { tree := [("g.txt", { oid := 4, fileMode := 33188 })], parents := [] }

/-- A merge oracle with no conflicts and no entries. -/
def c3CleanMerge : Commit → Commit → MergeIndex := fun _ _ =>
  { hasConflicts := false, conflicts := [], getEntry := fun _ => none }

theorem cherry_pick_fast_rejects_multi_parent_witness :
    (cherry_pick_fast c3CleanMerge c3PatchCommit c3TargetCommit
        { reuse_parent_tree_if_possible := true }).1 =
      Except.error "Could not get paths touched by commit" :=
  cherry_pick_fast_rejects_multi_parent c3CleanMerge c3PatchCommit
    c3TargetCommit { reuse_parent_tree_if_possible := true } (by decide)

/-- Counterexample to C3 as stated: a patch commit with zero parents is
not rejected — `cherry_pick_fast` computes its changed paths as all paths
in its tree and proceeds to a (successful) merge. -/
theorem cherry_pick_fast_zero_parent_counterexample :
    c3ZeroParentPatchCommit.parents = [] ∧
    cherry_pick_fast c3CleanMerge c3ZeroParentPatchCommit c3TargetCommit
        { reuse_parent_tree_if_possible := false } =
      (Except.ok (Except.ok [("g.txt", { oid := 4, fileMode := 33188 })]), []) :=
  ⟨rfl, rfl⟩

/-! ### Helper lemmas for `amend_fast` -/

theorem map_fst_map_pair {α : Type} (l : List String) (f : String → α) :
    (l.map (fun q => (q, f q))).map Prod.fst = l := by
  induction l with
  | nil => rfl
  | cons q rest ih => simp [ih]

/-- Computation shape of `amend_fast` from the index, once the parent
commit's touched paths are known. -/
theorem amend_fast_from_index_eq (fs : String → FsResult)
    (index : String → Option IndexEntry) (parent_commit : Commit)
    (paths : List String) (pp : List String)
    (htouch : get_paths_touched_by_commit parent_commit = some pp) :
    amend_fast fs index parent_commit (AmendFastOptions.FromIndex paths) =
      (Except.ok (hydrate_tree parent_commit.tree
        ((listUnion pp paths).map (fun changed_path =>
          (changed_path,
            match assocLookup (indexEntryList index paths).1.reverse
                changed_path with
            | some v => v
            | none =>
              assocLookup
                (dehydrate_tree parent_commit.tree (listUnion pp paths))
                changed_path)))),
       (indexEntryList index paths).2) := by
  unfold amend_fast
  rw [htouch]
  rfl

/-- Computation shape of `amend_fast` from the working copy when every
requested read succeeds. -/
theorem amend_fast_from_wc_eq (fs : String → FsResult)
    (index : String → Option IndexEntry) (parent_commit : Commit)
    (status_entries : List StatusEntry) (pp : List String)
    (l : List (String × Option TreeEntry))
    (htouch : get_paths_touched_by_commit parent_commit = some pp)
    (hwc : workingCopyEntryList fs
      (status_entries.flatMap (fun e =>
        (StatusEntry.paths e).map (fun p => (p, e.working_copy_file_mode)))) =
      Except.ok l) :
    amend_fast fs index parent_commit
        (AmendFastOptions.FromWorkingCopy status_entries) =
      (Except.ok (hydrate_tree parent_commit.tree
        ((listUnion pp
            (AmendFastOptions.requestedPaths
              (AmendFastOptions.FromWorkingCopy status_entries))).map
          (fun changed_path =>
            (changed_path,
              match assocLookup l.reverse changed_path with
              | some v => v
              | none =>
                assocLookup
                  (dehydrate_tree parent_commit.tree
                    (listUnion pp
                      (AmendFastOptions.requestedPaths
                        (AmendFastOptions.FromWorkingCopy status_entries))))
                  changed_path)))),
       []) := by
  unfold amend_fast
  rw [htouch]
  dsimp only
  rw [hwc]
  rfl

/-- Computation shape of `amend_fast` from the working copy when some
requested read fails. -/
theorem amend_fast_from_wc_error (fs : String → FsResult)
    (index : String → Option IndexEntry) (parent_commit : Commit)
    (status_entries : List StatusEntry) (pp : List String) (e : String)
    (htouch : get_paths_touched_by_commit parent_commit = some pp)
    (hwc : workingCopyEntryList fs
      (status_entries.flatMap (fun e =>
        (StatusEntry.paths e).map (fun p => (p, e.working_copy_file_mode)))) =
      Except.error e) :
    amend_fast fs index parent_commit
        (AmendFastOptions.FromWorkingCopy status_entries) =
      (Except.error e, []) := by
  unfold amend_fast
  rw [htouch]
  dsimp only
  rw [hwc]
  rfl

theorem indexEntryList_keys_subset (index : String → Option IndexEntry)
    (paths : List String) :
    ∀ q ∈ (indexEntryList index paths).1.map Prod.fst, q ∈ paths := by
  induction paths with
  | nil =>
    intro q hq
    rw [indexEntryList] at hq
    simp at hq
  | cons q rest ih =>
    intro x hx
    rcases h : index q with _ | ⟨_ | oid, m⟩ <;>
      rw [indexEntryList, h] at hx
    · simp only [List.map_cons, List.mem_cons] at hx
      rcases hx with hx | hx
      · simp [hx]
      · exact List.mem_cons_of_mem _ (ih x hx)
    · exact List.mem_cons_of_mem _ (ih x hx)
    · simp only [List.map_cons, List.mem_cons] at hx
      rcases hx with hx | hx
      · simp [hx]
      · exact List.mem_cons_of_mem _ (ih x hx)

theorem indexEntryList_zero_not_mem (index : String → Option IndexEntry)
    (paths : List String) (p : String) (m : FileMode)
    (hz : index p = some { oid := MaybeZeroOid.Zero, fileMode := m }) :
    p ∉ (indexEntryList index paths).1.map Prod.fst := by
  induction paths with
  | nil => simp [indexEntryList]
  | cons q rest ih =>
    rcases h : index q with _ | ⟨_ | oid, m'⟩ <;>
      rw [indexEntryList, h] <;> intro hmem
    · simp only [List.map_cons, List.mem_cons] at hmem
      rcases hmem with hmem | hmem
      · subst hmem; rw [hz] at h; cases h
      · exact ih hmem
    · exact ih hmem
    · simp only [List.map_cons, List.mem_cons] at hmem
      rcases hmem with hmem | hmem
      · subst hmem; rw [hz] at h; simp at h
      · exact ih hmem

theorem indexEntryList_zero_warning (index : String → Option IndexEntry)
    (paths : List String) (p : String) (m : FileMode) (hp : p ∈ paths)
    (hz : index p = some { oid := MaybeZeroOid.Zero, fileMode := m }) :
    indexZeroOidWarning p ∈ (indexEntryList index paths).2 := by
  induction paths with
  | nil => simp at hp
  | cons q rest ih =>
    rcases List.mem_cons.mp hp with hq | hq
    · subst hq
      rw [indexEntryList, hz]
      simp
    · rcases h : index q with _ | ⟨_ | oid, m'⟩ <;> rw [indexEntryList, h] <;>
        simp [ih hq]

/-! ### C4: zero-OID entries are never propagated as valid data -/

/-- C4 (amended).  A zero OID encountered where real content was expected
is never propagated as valid data: in `cherry_pick_fast` a zero-OID merged
index entry is logged and treated as a removal; in `amend_fast` from the
index a zero-OID staged entry is logged and dropped from the request, so
the path falls back to its value in the parent commit's tree; in both
cases the operation still completes. -/
theorem zero_oid_treated_defensively :
    (∀ (merge : Commit → Commit → MergeIndex)
        (patch_commit target_commit : Commit)
        (options : CherryPickFastOptions) (cp : List String) (p : String)
        (m : FileMode),
      elisionApplies options patch_commit target_commit = false →
      get_paths_touched_by_commit patch_commit = some cp →
      (merge (dehydrate_commit patch_commit cp true)
        (dehydrate_commit target_commit cp false)).hasConflicts = false →
      p ∈ cp →
      (merge (dehydrate_commit patch_commit cp true)
          (dehydrate_commit target_commit cp false)).getEntry p =
        some { oid := MaybeZeroOid.Zero, fileMode := m } →
      ∃ tree ws,
        cherry_pick_fast merge patch_commit target_commit options =
          (Except.ok (Except.ok tree), ws) ∧
        assocLookup tree p = none ∧ cherryZeroOidWarning ∈ ws) ∧
    (∀ (fs : String → FsResult) (index : String → Option IndexEntry)
        (parent_commit : Commit) (paths : List String) (p : String)
        (m : FileMode) (pp : List String),
      get_paths_touched_by_commit parent_commit = some pp →
      p ∈ paths →
      index p = some { oid := MaybeZeroOid.Zero, fileMode := m } →
      ∃ tree ws,
        amend_fast fs index parent_commit (AmendFastOptions.FromIndex paths) =
          (Except.ok tree, ws) ∧
        assocLookup tree p = assocLookup parent_commit.tree p ∧
        indexZeroOidWarning p ∈ ws) := by
  constructor
  · intro merge patch_commit target_commit options cp p m helide htouch
      hnoconf hp hz
    refine ⟨hydrate_tree target_commit.tree
        (collectRebasedEntries (merge (dehydrate_commit patch_commit cp true)
          (dehydrate_commit target_commit cp false)) cp).1,
      (collectRebasedEntries (merge (dehydrate_commit patch_commit cp true)
        (dehydrate_commit target_commit cp false)) cp).2, ?_, ?_, ?_⟩
    · unfold cherry_pick_fast
      rw [helide, htouch]
      simp only [Bool.false_eq_true, if_false, hnoconf]
    · rw [collectRebasedEntries_fst]
      rw [hydrate_tree_lookup _ _ p
        (by rw [map_fst_map_pair]
            exact nodup_get_paths_touched _ _ htouch)]
      rw [assocLookup_map_pair, if_pos hp]
      simp [hz, classifyMergedEntry]
    · exact collectRebasedEntries_warning _ cp p m hp hz
  · intro fs index parent_commit paths p m pp htouch hpmem hz
    have hpch : p ∈ listUnion pp paths :=
      (mem_listUnion pp paths p).mpr (Or.inr hpmem)
    refine ⟨_, _, amend_fast_from_index_eq fs index parent_commit paths pp
      htouch, ?_, ?_⟩
    · have hnotin : assocLookup (indexEntryList index paths).1.reverse p =
          none := by
        apply assocLookup_eq_none_of_not_mem
        have h := indexEntryList_zero_not_mem index paths p m hz
        simpa [List.map_reverse, List.mem_reverse] using h
      rw [hydrate_tree_lookup _ _ p
        (by rw [map_fst_map_pair]
            exact nodup_listUnion _ _ (nodup_get_paths_touched _ _ htouch))]
      rw [assocLookup_map_pair, if_pos hpch]
      dsimp only
      rw [hnotin]
      dsimp only
      rw [dehydrate_tree_lookup, if_pos hpch]
    · exact indexEntryList_zero_warning index paths p m hpmem hz

def c4Parent : Commit :=
  { tree := [("f.txt", { oid := 7, fileMode := 33188 })], parents := [] }

def c4Index : String → Option IndexEntry := fun p =>
  if p = "f.txt" then some { oid := MaybeZeroOid.Zero, fileMode := 33188 }
  else none

def c4Fs : String → FsResult := fun _ => FsResult.notFound

/-- Counterexample to C4 as stated: a zero-OID staged index entry in
`amend_fast` from the index is not treated as a removal — the path stays
present in the resulting tree with its parent-tree value. -/
theorem amend_fast_zero_oid_counterexample :
    c4Index "f.txt" = some { oid := MaybeZeroOid.Zero, fileMode := 33188 } ∧
    amend_fast c4Fs c4Index c4Parent (AmendFastOptions.FromIndex ["f.txt"]) =
      (Except.ok [("f.txt", { oid := 7, fileMode := 33188 })],
        [indexZeroOidWarning "f.txt"]) ∧
    assocLookup ([("f.txt", { oid := 7, fileMode := 33188 })] : Tree)
        "f.txt" =
      some ({ oid := 7, fileMode := 33188 } : TreeEntry) :=
  ⟨rfl, rfl, rfl⟩

def c4Merge : Commit → Commit → MergeIndex := fun _ _ =>
  { hasConflicts := false, conflicts := [],
    getEntry := fun p =>
      if p = "f.txt" then
        some { oid := MaybeZeroOid.Zero, fileMode := 33188 }
      else none }

def c4CherryPatch : Commit :=
  { tree := [("f.txt", { oid := 3, fileMode := 33188 })], parents := [] }

def c4CherryTarget : Commit :=
  { tree := [("f.txt", { oid := 9, fileMode := 33188 })], parents := [] }

theorem zero_oid_treated_defensively_witness :
    (∃ tree ws,
      cherry_pick_fast c4Merge c4CherryPatch c4CherryTarget
          { reuse_parent_tree_if_possible := false } =
        (Except.ok (Except.ok tree), ws) ∧
      assocLookup tree "f.txt" = none ∧ cherryZeroOidWarning ∈ ws) ∧
    (∃ tree ws,
      amend_fast c4Fs c4Index c4Parent (AmendFastOptions.FromIndex ["f.txt"]) =
        (Except.ok tree, ws) ∧
      assocLookup tree "f.txt" = assocLookup c4Parent.tree "f.txt" ∧
      indexZeroOidWarning "f.txt" ∈ ws) :=
  ⟨zero_oid_treated_defensively.1 c4Merge c4CherryPatch c4CherryTarget
      { reuse_parent_tree_if_possible := false } ["f.txt"] "f.txt" 33188
      rfl rfl rfl (by simp) rfl,
    zero_oid_treated_defensively.2 c4Fs c4Index c4Parent ["f.txt"] "f.txt"
      33188 ["f.txt"] rfl (by simp) rfl⟩

/-! ### C5: status-stream record dispatch -/

theorem takeGroup_eq (g rest : List Nat) (hg : ∀ x ∈ g, x ≠ 0) :
    takeGroup (g ++ 0 :: rest) = (g, rest) := by
  induction g with
  | nil => simp [takeGroup]
  | cons b bs ih =>
    have hb : b ≠ 0 := hg b (by simp)
    simp only [List.cons_append, takeGroup, if_neg hb, List.append_eq]
    rw [ih (fun x hx => hg x (by simp [hx]))]

theorem get_status_cons (parse : List Nat → Except String StatusEntry)
    (b : Nat) (bs : List Nat) :
    get_status parse (b :: bs) =
      (if b = 49 ∨ b = 117 then
        match parse (b :: (takeGroup bs).1) with
        | Except.error e => Except.error e
        | Except.ok entry =>
          match get_status parse (takeGroup bs).2 with
          | Except.error e => Except.error e
          | Except.ok entries => Except.ok (entry :: entries)
      else if b = 50 then
        match parse ((b :: (takeGroup bs).1) ++
            0 :: (takeGroup (takeGroup bs).2).1) with
        | Except.error e => Except.error e
        | Except.ok entry =>
          match get_status parse (takeGroup (takeGroup bs).2).2 with
          | Except.error e => Except.error e
          | Except.ok entries => Except.ok (entry :: entries)
      else Except.error ("unknown status line prefix: " ++ toString b)) := by
  rw [get_status]

/-- C5.  The decoder dispatches on the leading tag byte of each record
before consuming fields: tag 49 or 117 (ASCII 1 or u) consumes exactly one
NUL-terminated field group, tag 50 (ASCII 2) consumes one NUL-terminated
field group immediately followed by a second NUL-terminated field, and any
other leading tag byte fails the whole decode with a parse error. -/
theorem get_status_record_dispatch
    (parse : List Nat → Except String StatusEntry) :
    (∀ (b : Nat) (g rest : List Nat), b = 49 ∨ b = 117 →
      (∀ x ∈ g, x ≠ 0) →
      get_status parse (b :: (g ++ 0 :: rest)) =
        Except.bind (parse (b :: g)) (fun entry =>
          Except.map (fun entries => entry :: entries)
            (get_status parse rest))) ∧
    (∀ (g p rest : List Nat), (∀ x ∈ g, x ≠ 0) → (∀ x ∈ p, x ≠ 0) →
      get_status parse (50 :: (g ++ 0 :: (p ++ 0 :: rest))) =
        Except.bind (parse ((50 :: g) ++ 0 :: p)) (fun entry =>
          Except.map (fun entries => entry :: entries)
            (get_status parse rest))) ∧
    (∀ (b : Nat) (bs : List Nat), b ≠ 49 → b ≠ 117 → b ≠ 50 →
      ∃ msg, get_status parse (b :: bs) = Except.error msg) := by
  refine ⟨?_, ?_, ?_⟩
  · intro b g rest hb hg
    rw [get_status_cons, if_pos hb, takeGroup_eq g rest hg]
    cases hparse : parse (b :: g) <;>
      cases hrec : get_status parse rest <;>
        simp [Except.bind, Except.map, hparse, hrec]
  · intro g p rest hg hp
    have h50 : ¬((50 : Nat) = 49 ∨ (50 : Nat) = 117) := by decide
    rw [get_status_cons, if_neg h50, if_pos rfl,
      takeGroup_eq g (p ++ 0 :: rest) hg]
    dsimp only
    rw [takeGroup_eq p rest hp]
    cases hparse : parse ((50 :: g) ++ 0 :: p) <;>
      cases hrec : get_status parse rest <;>
        simp [Except.bind, Except.map, hparse, hrec]
  · intro b bs h1 h2 h3
    refine ⟨"unknown status line prefix: " ++ toString b, ?_⟩
    rw [get_status_cons, if_neg (by simp [h1, h2]), if_neg h3]

/-- The per-record field parse used by the decoder witness: it only
records the raw line, which is all the dispatch property inspects. -/
def c5Parse : List Nat → Except String StatusEntry := fun _ =>
  Except.ok
    { index_status := FileStatus.Unmodified,
      working_copy_status := FileStatus.Unmodified,
      working_copy_file_mode := 33188,
      path := "", orig_path := none }

theorem get_status_record_dispatch_witness :
    get_status c5Parse (49 :: ([65] ++ 0 :: [])) =
      Except.bind (c5Parse (49 :: [65])) (fun entry =>
        Except.map (fun entries => entry :: entries)
          (get_status c5Parse [])) ∧
    get_status c5Parse (50 :: ([66] ++ 0 :: ([67] ++ 0 :: []))) =
      Except.bind (c5Parse ((50 :: [66]) ++ 0 :: [67])) (fun entry =>
        Except.map (fun entries => entry :: entries)
          (get_status c5Parse [])) ∧
    ∃ msg, get_status c5Parse (51 :: []) = Except.error msg :=
  ⟨(get_status_record_dispatch c5Parse).1 49 [65] [] (Or.inl rfl)
      (by decide),
    (get_status_record_dispatch c5Parse).2.1 [66] [67] [] (by decide)
      (by decide),
    (get_status_record_dispatch c5Parse).2.2 51 [] (by decide) (by decide)
      (by decide)⟩

/-! ### C7: differencer on identical trees and on a missing side -/

/-- C7.  The changed-path differencer is empty on identical trees and
total on a missing side, and a commit with no parents touches exactly the
paths of its own tree. -/
theorem changed_paths_empty_and_total :
    (∀ T : Tree, get_changed_paths_between_trees (some T) (some T) = []) ∧
    (∀ (T : Tree) (p : String),
      p ∈ get_changed_paths_between_trees none (some T) ↔
        p ∈ T.map Prod.fst) ∧
    (∀ c : Commit, c.parents = [] →
      ∃ l, get_paths_touched_by_commit c = some l ∧
        ∀ p, p ∈ l ↔ p ∈ c.tree.map Prod.fst) := by
  have htotal : ∀ (T : Tree) (p : String),
      p ∈ get_changed_paths_between_trees none (some T) ↔
        p ∈ T.map Prod.fst := by
    intro T p
    unfold get_changed_paths_between_trees
    dsimp only
    rw [List.mem_filter]
    constructor
    · intro h
      have := h.1
      rw [mem_listUnion] at this
      simpa using this
    · intro h
      refine ⟨?_, ?_⟩
      · rw [mem_listUnion]
        simp [h]
      · obtain ⟨v, hv⟩ := Option.isSome_iff_exists.mp
          ((assocLookup_isSome_iff_mem T p).mpr h)
        simp [Option.getD, hv]
  refine ⟨?_, htotal, ?_⟩
  · intro T
    unfold get_changed_paths_between_trees
    dsimp only
    have hf : (fun p =>
        decide (assocLookup T p ≠ assocLookup T p)) = fun _ => false := by
      funext p
      simp
    rw [hf]
    exact List.filter_false _
  · intro c hc
    refine ⟨get_changed_paths_between_trees none (some c.tree), ?_, ?_⟩
    · unfold get_paths_touched_by_commit
      rw [hc]
    · intro p
      exact htotal c.tree p

def c7Tree : Tree :=
  [("a.txt", { oid := 1, fileMode := 33188 }),
   ("b.txt", { oid := 2, fileMode := 33188 })]

def c7Commit : Commit := { tree := c7Tree, parents := [] }

theorem changed_paths_empty_and_total_witness :
    get_changed_paths_between_trees (some c7Tree) (some c7Tree) = [] ∧
    ("a.txt" ∈ get_changed_paths_between_trees none (some c7Tree) ↔
      "a.txt" ∈ c7Tree.map Prod.fst) ∧
    ∃ l, get_paths_touched_by_commit c7Commit = some l ∧
      ∀ p, p ∈ l ↔ p ∈ c7Commit.tree.map Prod.fst :=
  ⟨changed_paths_empty_and_total.1 c7Tree,
    changed_paths_empty_and_total.2.1 c7Tree "a.txt",
    changed_paths_empty_and_total.2.2 c7Commit rfl⟩

/-! ### Lookup lemmas for the amend entry lists -/

theorem indexEntryList_rev_lookup_none (index : String → Option IndexEntry)
    (paths : List String) (p : String) (hp : p ∈ paths)
    (hn : index p = none) :
    assocLookup (indexEntryList index paths).1.reverse p = some none := by
  induction paths with
  | nil => simp at hp
  | cons q rest ih =>
    by_cases hqp : q = p
    · subst hqp
      rw [indexEntryList, hn]
      dsimp only
      rw [List.reverse_cons, assocLookup_append]
      by_cases hpr : q ∈ rest
      · rw [ih hpr]
      · have hk : assocLookup (indexEntryList index rest).1.reverse q =
            none := by
          apply assocLookup_eq_none_of_not_mem
          intro hmem
          exact hpr (indexEntryList_keys_subset index rest q
            (by simpa [List.map_reverse, List.mem_reverse] using hmem))
        rw [hk]
        simp [assocLookup]
    · have hpr : p ∈ rest := by
        rcases List.mem_cons.mp hp with h | h
        · exact absurd h.symm hqp
        · exact h
      rcases h : index q with _ | ⟨_ | oid, m⟩ <;> rw [indexEntryList, h] <;>
        dsimp only
      · rw [List.reverse_cons, assocLookup_append, ih hpr]
      · exact ih hpr
      · rw [List.reverse_cons, assocLookup_append, ih hpr]

theorem workingCopyEntryList_keys (fs : String → FsResult)
    (pairs : List (String × FileMode))
    (l : List (String × Option TreeEntry))
    (h : workingCopyEntryList fs pairs = Except.ok l) :
    l.map Prod.fst = pairs.map Prod.fst := by
  induction pairs generalizing l with
  | nil =>
    rw [workingCopyEntryList] at h
    cases h
    rfl
  | cons qm rest ih =>
    obtain ⟨q, m⟩ := qm
    rw [workingCopyEntryList] at h
    cases hc : create_blob_from_path (fs q) with
    | error e => rw [hc] at h; cases h
    | ok o =>
      rw [hc] at h
      cases hr : workingCopyEntryList fs rest with
      | error e => rw [hr] at h; cases h
      | ok r =>
        rw [hr] at h
        cases h
        simp [ih r hr]

theorem workingCopyEntryList_ok (fs : String → FsResult)
    (pairs : List (String × FileMode))
    (h : ∀ q ∈ pairs.map Prod.fst, ∀ msg, fs q ≠ FsResult.ioError msg) :
    ∃ l, workingCopyEntryList fs pairs = Except.ok l := by
  induction pairs with
  | nil => exact ⟨[], rfl⟩
  | cons qm rest ih =>
    obtain ⟨q, m⟩ := qm
    obtain ⟨r, hr⟩ := ih (fun x hx msg => h x (by simp [hx]) msg)
    cases hfs : fs q with
    | found oid =>
      refine ⟨(q, some { oid := oid, fileMode := m }) :: r, ?_⟩
      rw [workingCopyEntryList, hfs, hr]
      rfl
    | notFound =>
      refine ⟨(q, none) :: r, ?_⟩
      rw [workingCopyEntryList, hfs, hr]
      rfl
    | ioError msg => exact absurd hfs (h q (by simp) msg)

theorem workingCopyEntryList_error (fs : String → FsResult)
    (pairs : List (String × FileMode)) (q : String) (msg : String)
    (hq : q ∈ pairs.map Prod.fst) (hfs : fs q = FsResult.ioError msg) :
    ∃ e, workingCopyEntryList fs pairs = Except.error e := by
  induction pairs with
  | nil => simp at hq
  | cons qm rest ih =>
    obtain ⟨q', m⟩ := qm
    by_cases hqq : q' = q
    · subst hqq
      refine ⟨msg, ?_⟩
      rw [workingCopyEntryList, hfs]
      rfl
    · have hq' : q ∈ rest.map Prod.fst := by
        simp only [List.map_cons, List.mem_cons] at hq
        rcases hq with h | h
        · exact absurd h.symm hqq
        · exact h
      obtain ⟨e, he⟩ := ih hq'
      cases hc : fs q' with
      | found oid =>
        refine ⟨e, ?_⟩
        rw [workingCopyEntryList, hc, he]
        rfl
      | notFound =>
        refine ⟨e, ?_⟩
        rw [workingCopyEntryList, hc, he]
        rfl
      | ioError msg' =>
        refine ⟨msg', ?_⟩
        rw [workingCopyEntryList, hc]
        rfl

theorem workingCopyEntryList_rev_lookup_notFound (fs : String → FsResult)
    (pairs : List (String × FileMode))
    (l : List (String × Option TreeEntry)) (p : String)
    (h : workingCopyEntryList fs pairs = Except.ok l)
    (hp : p ∈ pairs.map Prod.fst) (hfs : fs p = FsResult.notFound) :
    assocLookup l.reverse p = some none := by
  induction pairs generalizing l with
  | nil => simp at hp
  | cons qm rest ih =>
    obtain ⟨q, m⟩ := qm
    rw [workingCopyEntryList] at h
    cases hc : create_blob_from_path (fs q) with
    | error e => rw [hc] at h; cases h
    | ok o =>
      rw [hc] at h
      cases hr : workingCopyEntryList fs rest with
      | error e => rw [hr] at h; cases h
      | ok r =>
        rw [hr] at h
        cases h
        rw [List.reverse_cons, assocLookup_append]
        by_cases hpr : p ∈ rest.map Prod.fst
        · rw [ih r hr hpr]
        · have hqp : q = p := by
            simp only [List.map_cons, List.mem_cons] at hp
            rcases hp with h' | h'
            · exact h'.symm
            · exact absurd h' hpr
          subst hqp
          have hk : assocLookup r.reverse q = none := by
            apply assocLookup_eq_none_of_not_mem
            rw [List.map_reverse, List.mem_reverse]
            rw [workingCopyEntryList_keys fs rest r hr]
            exact hpr
          rw [hk]
          rw [hfs] at hc
          have ho : o = none := by
            simpa [create_blob_from_path] using hc.symm
          subst ho
          simp [assocLookup]

theorem pairs_keys (status_entries : List StatusEntry) :
    ((status_entries.flatMap (fun e =>
        (StatusEntry.paths e).map (fun p => (p, e.working_copy_file_mode)))).map
      Prod.fst) =
      status_entries.flatMap StatusEntry.paths := by
  induction status_entries with
  | nil => rfl
  | cons e rest ih =>
    simp only [List.flatMap_cons, List.map_append, ih, map_fst_map_pair]

/-! ### C6: frame property of fast amend -/

/-- C6.  In a successful `amend_fast`, every path not explicitly named by
the amend request keeps its value from the parent commit's tree: paths in
the changed set fall back to the dehydrated parent tree (which copies the
parent verbatim on that set), and paths outside the changed set are left
untouched by hydration. -/
theorem amend_fast_frame (fs : String → FsResult)
    (index : String → Option IndexEntry) (parent_commit : Commit)
    (opts : AmendFastOptions) (tree : Tree) (ws : List String)
    (hres : amend_fast fs index parent_commit opts = (Except.ok tree, ws))
    (p : String) (hp : p ∉ AmendFastOptions.requestedPaths opts) :
    assocLookup tree p = assocLookup parent_commit.tree p := by
  cases htouch : get_paths_touched_by_commit parent_commit with
  | none =>
    unfold amend_fast at hres
    rw [htouch] at hres
    simp at hres
  | some pp =>
    have hnodupch :
        (listUnion pp (AmendFastOptions.requestedPaths opts)).Nodup :=
      nodup_listUnion _ _ (nodup_get_paths_touched _ _ htouch)
    cases opts with
    | FromIndex paths =>
      rw [amend_fast_from_index_eq fs index parent_commit paths pp htouch]
        at hres
      have h1 : Except.ok (hydrate_tree parent_commit.tree
          ((listUnion pp paths).map (fun changed_path =>
            (changed_path,
              match assocLookup (indexEntryList index paths).1.reverse
                  changed_path with
              | some v => v
              | none =>
                assocLookup
                  (dehydrate_tree parent_commit.tree (listUnion pp paths))
                  changed_path)))) = Except.ok tree :=
        congrArg Prod.fst hres
      have htree := (Except.ok.injEq _ _).mp h1
      rw [← htree]
      rw [hydrate_tree_lookup _ _ p
        (by rw [map_fst_map_pair]; exact hnodupch)]
      rw [assocLookup_map_pair]
      by_cases hch : p ∈ listUnion pp paths
      · rw [if_pos hch]
        dsimp only
        have hnone : assocLookup (indexEntryList index paths).1.reverse p =
            none := by
          apply assocLookup_eq_none_of_not_mem
          intro hmem
          exact hp (indexEntryList_keys_subset index paths p
            (by simpa [List.map_reverse, List.mem_reverse] using hmem))
        rw [hnone]
        dsimp only
        rw [dehydrate_tree_lookup, if_pos hch]
      · rw [if_neg hch]
    | FromWorkingCopy status_entries =>
      cases hwc : workingCopyEntryList fs
          (status_entries.flatMap (fun e =>
            (StatusEntry.paths e).map
              (fun q => (q, e.working_copy_file_mode)))) with
      | error e =>
        rw [amend_fast_from_wc_error fs index parent_commit status_entries
          pp e htouch hwc] at hres
        simp at hres
      | ok l =>
        rw [amend_fast_from_wc_eq fs index parent_commit status_entries
          pp l htouch hwc] at hres
        have h1 := congrArg Prod.fst hres
        dsimp only at h1
        have htree := (Except.ok.injEq _ _).mp h1
        rw [← htree]
        rw [hydrate_tree_lookup _ _ p
          (by rw [map_fst_map_pair]; exact hnodupch)]
        rw [assocLookup_map_pair]
        by_cases hch : p ∈ listUnion pp
            (AmendFastOptions.requestedPaths
              (AmendFastOptions.FromWorkingCopy status_entries))
        · rw [if_pos hch]
          dsimp only
          have hnone : assocLookup l.reverse p = none := by
            apply assocLookup_eq_none_of_not_mem
            rw [List.map_reverse, List.mem_reverse]
            rw [workingCopyEntryList_keys fs _ l hwc, pairs_keys]
            exact hp
          rw [hnone]
          dsimp only
          rw [dehydrate_tree_lookup, if_pos hch]
        · rw [if_neg hch]

def c6Parent : Commit :=
  { tree := [("a.txt", { oid := 1, fileMode := 33188 }),
             ("other.txt", { oid := 2, fileMode := 33188 })],
    parents := [] }

def c6Index : String → Option IndexEntry := fun p =>
  if p = "a.txt" then some { oid := MaybeZeroOid.NonZero 5, fileMode := 33188 }
  else none

def c6Fs : String → FsResult := fun _ => FsResult.notFound

def c6ResultTree : Tree :=
  [("a.txt", { oid := 5, fileMode := 33188 }),
   ("other.txt", { oid := 2, fileMode := 33188 })]

theorem amend_fast_frame_witness :
    amend_fast c6Fs c6Index c6Parent (AmendFastOptions.FromIndex ["a.txt"]) =
      (Except.ok c6ResultTree, []) ∧
    assocLookup c6ResultTree "other.txt" =
      assocLookup c6Parent.tree "other.txt" :=
  ⟨rfl,
    amend_fast_frame c6Fs c6Index c6Parent
      (AmendFastOptions.FromIndex ["a.txt"]) c6ResultTree [] rfl
      "other.txt" (by decide)⟩

/-! ### C8: deleting the last file collapses to the empty tree -/

/-- C8.  When the parent commit's tree contains a single file, the working
copy has deleted it, and a status entry for that file drives `amend_fast`
from the working copy, the operation succeeds and the resulting tree is
the empty tree, whose OID is the canonical empty-tree OID. -/
theorem amend_fast_delete_last_file (fs : String → FsResult)
    (index : String → Option IndexEntry) (parent_commit : Commit)
    (p : String) (e : TreeEntry) (st : StatusEntry)
    (htree : parent_commit.tree = [(p, e)])
    (hpar : parent_commit.parents = [])
    (hfs : fs p = FsResult.notFound)
    (hpath : st.path = p) (horig : st.orig_path = none) :
    amend_fast fs index parent_commit
        (AmendFastOptions.FromWorkingCopy [st]) =
      (Except.ok ([] : Tree), []) ∧
    Tree.getOid ([] : Tree) = ([] : List (String × TreeEntry)) := by
  have hpaths : StatusEntry.paths st = [p] := by
    simp [StatusEntry.paths, hpath, horig]
  have htouch : get_paths_touched_by_commit parent_commit = some [p] := by
    unfold get_paths_touched_by_commit
    rw [hpar]
    dsimp only
    rw [htree]
    simp [get_changed_paths_between_trees, listUnion, insertIfAbsent,
      assocLookup]
  have hwc : workingCopyEntryList fs
      ([st].flatMap (fun e2 =>
        (StatusEntry.paths e2).map
          (fun q => (q, e2.working_copy_file_mode)))) =
      Except.ok [(p, none)] := by
    simp only [List.flatMap_cons, List.flatMap_nil, List.append_nil,
      hpaths, List.map_cons, List.map_nil]
    simp [workingCopyEntryList, create_blob_from_path, hfs]
  refine ⟨?_, rfl⟩
  rw [amend_fast_from_wc_eq fs index parent_commit [st] [p] [(p, none)]
    htouch hwc]
  have hreq : AmendFastOptions.requestedPaths
      (AmendFastOptions.FromWorkingCopy [st]) = [p] := by
    simp [AmendFastOptions.requestedPaths, hpaths]
  rw [hreq]
  have hun : listUnion [p] [p] = [p] := by
    simp [listUnion, insertIfAbsent]
  rw [hun, htree]
  simp [hydrate_tree, hydrateKept, hydrateAdded, assocLookup,
    dehydrate_tree]

def c8Parent : Commit :=
  { tree := [("initial.txt", { oid := 8, fileMode := 33188 })],
    parents := [] }

def c8St : StatusEntry :=
  { index_status := FileStatus.Unmodified,
    working_copy_status := FileStatus.Deleted,
    working_copy_file_mode := 33188,
    path := "initial.txt", orig_path := none }

def c8Fs : String → FsResult := fun _ => FsResult.notFound

def c8Index : String → Option IndexEntry := fun _ => none

theorem amend_fast_delete_last_file_witness :
    amend_fast c8Fs c8Index c8Parent
        (AmendFastOptions.FromWorkingCopy [c8St]) =
      (Except.ok ([] : Tree), []) ∧
    Tree.getOid ([] : Tree) = ([] : List (String × TreeEntry)) :=
  amend_fast_delete_last_file c8Fs c8Index c8Parent "initial.txt"
    { oid := 8, fileMode := 33188 } c8St rfl rfl rfl rfl rfl

/-! ### C9: working-copy read failures in fast amend -/

/-- C9.  A working-copy read failure other than file-not-found aborts the
whole `amend_fast` operation with a hard error, while a file-not-found
result lets the operation continue with the path recorded as absent
(hence removed from the resulting tree). -/
theorem amend_fast_working_copy_read_failures :
    (∀ (fs : String → FsResult) (index : String → Option IndexEntry)
        (parent_commit : Commit) (status_entries : List StatusEntry)
        (q : String) (msg : String),
      q ∈ AmendFastOptions.requestedPaths
        (AmendFastOptions.FromWorkingCopy status_entries) →
      fs q = FsResult.ioError msg →
      ∃ e, (amend_fast fs index parent_commit
        (AmendFastOptions.FromWorkingCopy status_entries)).1 =
          Except.error e) ∧
    (∀ (fs : String → FsResult) (index : String → Option IndexEntry)
        (parent_commit : Commit) (status_entries : List StatusEntry)
        (pp : List String),
      get_paths_touched_by_commit parent_commit = some pp →
      (∀ q ∈ AmendFastOptions.requestedPaths
          (AmendFastOptions.FromWorkingCopy status_entries),
        ∀ msg, fs q ≠ FsResult.ioError msg) →
      ∃ tree ws,
        amend_fast fs index parent_commit
            (AmendFastOptions.FromWorkingCopy status_entries) =
          (Except.ok tree, ws) ∧
        ∀ p ∈ AmendFastOptions.requestedPaths
            (AmendFastOptions.FromWorkingCopy status_entries),
          fs p = FsResult.notFound → assocLookup tree p = none) := by
  constructor
  · intro fs index parent_commit status_entries q msg hq hfs
    have hq' : q ∈ (status_entries.flatMap (fun e =>
        (StatusEntry.paths e).map
          (fun p => (p, e.working_copy_file_mode)))).map Prod.fst := by
      rw [pairs_keys]
      exact hq
    cases htouch : get_paths_touched_by_commit parent_commit with
    | none =>
      refine ⟨"Could not get paths touched by commit", ?_⟩
      unfold amend_fast
      rw [htouch]
    | some pp =>
      obtain ⟨e, he⟩ := workingCopyEntryList_error fs _ q msg hq' hfs
      refine ⟨e, ?_⟩
      rw [amend_fast_from_wc_error fs index parent_commit status_entries
        pp e htouch he]
  · intro fs index parent_commit status_entries pp htouch hnoerr
    have hnoerr' : ∀ q ∈ (status_entries.flatMap (fun e =>
        (StatusEntry.paths e).map
          (fun p => (p, e.working_copy_file_mode)))).map Prod.fst,
        ∀ msg, fs q ≠ FsResult.ioError msg := by
      intro q hq msg
      exact hnoerr q (by rw [pairs_keys] at hq; exact hq) msg
    obtain ⟨l, hl⟩ := workingCopyEntryList_ok fs _ hnoerr'
    refine ⟨_, _, amend_fast_from_wc_eq fs index parent_commit
      status_entries pp l htouch hl, ?_⟩
    intro p hpreq hfs
    have hch : p ∈ listUnion pp
        (AmendFastOptions.requestedPaths
          (AmendFastOptions.FromWorkingCopy status_entries)) :=
      (mem_listUnion _ _ p).mpr (Or.inr hpreq)
    rw [hydrate_tree_lookup _ _ p
      (by rw [map_fst_map_pair]
          exact nodup_listUnion _ _ (nodup_get_paths_touched _ _ htouch))]
    rw [assocLookup_map_pair, if_pos hch]
    dsimp only
    have hlook : assocLookup l.reverse p = some none := by
      apply workingCopyEntryList_rev_lookup_notFound fs _ l p hl _ hfs
      rw [pairs_keys]
      exact hpreq
    rw [hlook]

def c9Parent : Commit := { tree := [], parents := [] }

def c9Index : String → Option IndexEntry := fun _ => none

def c9EntryX : StatusEntry :=
  { index_status := FileStatus.Unmodified,
    working_copy_status := FileStatus.Modified,
    working_copy_file_mode := 33188,
    path := "x.txt", orig_path := none }

def c9EntryY : StatusEntry :=
  { index_status := FileStatus.Unmodified,
    working_copy_status := FileStatus.Deleted,
    working_copy_file_mode := 33188,
    path := "y.txt", orig_path := none }

def c9FsErr : String → FsResult := fun _ => FsResult.ioError "disk error"

def c9FsOk : String → FsResult := fun _ => FsResult.notFound

theorem amend_fast_working_copy_read_failures_witness :
    (∃ e, (amend_fast c9FsErr c9Index c9Parent
        (AmendFastOptions.FromWorkingCopy [c9EntryX])).1 =
      Except.error e) ∧
    (∃ tree ws,
      amend_fast c9FsOk c9Index c9Parent
          (AmendFastOptions.FromWorkingCopy [c9EntryY]) =
        (Except.ok tree, ws) ∧
      assocLookup tree "y.txt" = none) := by
  constructor
  · exact amend_fast_working_copy_read_failures.1 c9FsErr c9Index c9Parent
      [c9EntryX] "x.txt" "disk error" (by decide) rfl
  · obtain ⟨tree, ws, h1, h2⟩ :=
      amend_fast_working_copy_read_failures.2 c9FsOk c9Index c9Parent
        [c9EntryY] [] rfl (fun q _ msg => by simp [c9FsOk])
    exact ⟨tree, ws, h1, h2 "y.txt" (by decide) rfl⟩

/-! ### C10: a requested path absent from the index becomes a removal -/

/-- C10.  In `amend_fast` from the index, a requested path with no staged
index entry is mapped to a removal: the call succeeds and the resulting
tree omits that path, even if the parent commit's tree contained it. -/
theorem amend_fast_index_missing_entry (fs : String → FsResult)
    (index : String → Option IndexEntry) (parent_commit : Commit)
    (paths : List String) (p : String) (pp : List String)
    (htouch : get_paths_touched_by_commit parent_commit = some pp)
    (hp : p ∈ paths) (hnone : index p = none) :
    ∃ tree ws,
      amend_fast fs index parent_commit (AmendFastOptions.FromIndex paths) =
        (Except.ok tree, ws) ∧
      assocLookup tree p = none := by
  refine ⟨_, _, amend_fast_from_index_eq fs index parent_commit paths pp
    htouch, ?_⟩
  have hch : p ∈ listUnion pp paths :=
    (mem_listUnion pp paths p).mpr (Or.inr hp)
  rw [hydrate_tree_lookup _ _ p
    (by rw [map_fst_map_pair]
        exact nodup_listUnion _ _ (nodup_get_paths_touched _ _ htouch))]
  rw [assocLookup_map_pair, if_pos hch]
  dsimp only
  rw [indexEntryList_rev_lookup_none index paths p hp hnone]

def c10Parent : Commit :=
  { tree := [("f.txt", { oid := 7, fileMode := 33188 })], parents := [] }

def c10Index : String → Option IndexEntry := fun _ => none

def c10Fs : String → FsResult := fun _ => FsResult.notFound

theorem amend_fast_index_missing_entry_witness :
    (∃ tree ws,
      amend_fast c10Fs c10Index c10Parent
          (AmendFastOptions.FromIndex ["f.txt"]) =
        (Except.ok tree, ws) ∧
      assocLookup tree "f.txt" = none) ∧
    assocLookup c10Parent.tree "f.txt" =
      some { oid := 7, fileMode := 33188 } :=
  ⟨amend_fast_index_missing_entry c10Fs c10Index c10Parent ["f.txt"]
      "f.txt" ["f.txt"] rfl (by decide) rfl,
    rfl⟩

end GitBranchless
